import Mathlib

/-!
Verification of the LRU cache implemented in Ex2_LRU_Cache.py.

The Python class keeps a dict mapping each live key to a node, and a
doubly-linked list of nodes between two sentinels ordering live entries
from most-recently-used (head) to least-recently-used (tail).

Shallow embedding used here:
  - the dict is an association list of (key, value) pairs with unique keys;
    each pair stands for the binding key -> node together with the node's
    stored value (node.val);
  - the recency list is the list of live keys read from the node after the
    head sentinel down to the node before the tail sentinel;
  - the pointer splices of _add and _remove become prepend and erase on
    that key list, which is exactly their effect on a well-formed list.
Keys and values are Python ints, modelled as Int.
-/

/-- One public operation of the cache: a call to get or to put. -/
inductive Op where
  | get (key : Int) : Op
  | put (key : Int) (value : Int) : Op
deriving DecidableEq

/-- Model of the membership test and read access of the Python dict:
returns the value stored in the node bound to the key, if any. -/
def lookupKey : List (Int × Int) → Int → Option Int
  | [], _ => none
  | (k', v) :: rest, k => if k = k' then some v else lookupKey rest k

/-- Model of the dict store self.dict[key] = node: replaces the binding in
place when the key is present, otherwise appends a new binding. -/
def setKey : List (Int × Int) → Int → Int → List (Int × Int)
  | [], k, v => [(k, v)]
  | (k', v') :: rest, k, v =>
    if k = k' then (k, v) :: rest else (k', v') :: setKey rest k v

/-- Model of del self.dict[key]: removes the first binding of the key. -/
def delKey : List (Int × Int) → Int → List (Int × Int)
  | [], _ => []
  | (k', v') :: rest, k => if k = k' then rest else (k', v') :: delKey rest k

/-- The key set of the dict, as the list of bound keys. -/
def keys (d : List (Int × Int)) : List Int := d.map Prod.fst

/-- The key of the node adjacent to the tail sentinel (self.tail.prev.key).
On an empty list of live entries the adjacent node is the head sentinel,
whose key is -1 in the source. -/
def lastKey : List Int → Int
  | [] => -1
  | [k] => k
  | _ :: k :: rest => lastKey (k :: rest)

/-- The cache state: the Index (dict), the Recency List read head to tail
(order), and the fixed capacity. -/
structure LRUCache where
  dict : List (Int × Int)
  order : List Int
  capacity : Int
deriving DecidableEq

/-- LRUCache.__init__: empty dict, empty recency list, stored capacity.
The source performs no validation of the capacity argument. -/
def LRUCache.init (capacity : Int) : LRUCache :=
  { dict := [], order := [], capacity := capacity }

/-- LRUCache.get: miss returns -1 and leaves the state as it is; a hit
unlinks the node (_remove) and relinks it after the head sentinel (_add),
then returns node.val. -/
def LRUCache.get (s : LRUCache) (key : Int) : Int × LRUCache :=
  match lookupKey s.dict key with
  | none => (-1, s)
  | some v => (v, { s with order := key :: s.order.erase key })

/-- LRUCache.put: if the key is bound, its old node is unlinked; a fresh
node is stored in the dict and linked at the head; then, if the dict has
grown beyond capacity, the node before the tail sentinel is unlinked and
its key deleted from the dict. -/
def LRUCache.put (s : LRUCache) (key value : Int) : LRUCache :=
  let order1 := if (lookupKey s.dict key).isSome then s.order.erase key else s.order
  let dict1 := setKey s.dict key value
  let order2 := key :: order1
  if s.capacity < (dict1.length : Int) then
    { dict := delKey dict1 (lastKey order2), order := order2.dropLast,
      capacity := s.capacity }
  else
    { dict := dict1, order := order2, capacity := s.capacity }

/-- One public call, as a state transformer. -/
def LRUCache.step (s : LRUCache) : Op → LRUCache
  | Op.get k => (s.get k).2
  | Op.put k v => s.put k v

/-- A whole sequence of public calls. -/
def LRUCache.run (s : LRUCache) (ops : List Op) : LRUCache :=
  ops.foldl LRUCache.step s

/-- Structural invariant of a cache state: dict keys are unique, the
recency list repeats no key, both hold exactly the same keys, and they
have the same number of entries. -/
def CacheInv (s : LRUCache) : Prop :=
  (keys s.dict).Nodup ∧ s.order.Nodup ∧
    (∀ k ∈ keys s.dict, k ∈ s.order) ∧ (∀ k ∈ s.order, k ∈ keys s.dict) ∧
    s.dict.length = s.order.length

instance (s : LRUCache) : Decidable (CacheInv s) := by
  unfold CacheInv; infer_instance

/-- A state is reachable when some construction followed by some sequence
of public calls produces it. -/
def Reachable (s : LRUCache) : Prop :=
  ∃ (capacity : Int) (ops : List Op), s = (LRUCache.init capacity).run ops

/-- Whether an operation touches the given key (a get or a put on it). -/
def Op.touches (o : Op) (k : Int) : Bool :=
  match o with
  | Op.get k' => k = k'
  | Op.put k' _ => k = k'

/-- Index in the operation sequence of the most recent touch of a key,
none when the key is never touched. -/
def lastTouch : List Op → Int → Option Nat
  | [], _ => none
  | o :: rest, k =>
    match lastTouch rest k with
    | some i => some (i + 1)
    | none => if o.touches k then some 0 else none

/-- Key a was touched more recently than key b in the sequence. -/
def touchedAfter (ops : List Op) (a b : Int) : Prop :=
  ∃ i j, lastTouch ops a = some i ∧ lastTouch ops b = some j ∧ j < i

/-- Cost model of get, counting the primitive constant-time actions the
source performs: one dict membership test, and on a hit one dict read,
the two pointer writes of _remove and the four pointer writes of _add.
No other action occurs; in particular nothing walks the list. -/
def LRUCache.getCost (s : LRUCache) (key : Int) : Nat :=
  if (lookupKey s.dict key).isSome then 1 + 1 + 2 + 4 else 1

/-- Cost model of put, counting the primitive constant-time actions of the
source: one dict membership test, on a hit one dict read and the two
pointer writes of _remove, one dict store, the four pointer writes of
_add, one length comparison, and on an eviction two pointer writes of
_remove plus one dict deletion. -/
def LRUCache.putCost (s : LRUCache) (key value : Int) : Nat :=
  (if (lookupKey s.dict key).isSome then 1 + 1 + 2 else 1) + 1 + 4 + 1 +
    (if s.capacity < ((setKey s.dict key value).length : Int) then 2 + 1 else 0)

example : ((LRUCache.init 2).put 1 1).order = [1] := by decide
example : (((LRUCache.init 2).put 1 1).put 2 2).order = [2, 1] := by decide
example :
    ((((LRUCache.init 2).put 1 1).put 2 2).get 1).1 = 1 ∧
      ((((LRUCache.init 2).put 1 1).put 2 2).get 1).2.order = [1, 2] := by decide
example :
    (((((LRUCache.init 2).put 1 1).put 2 2).get 1).2.put 3 3).order = [3, 1] ∧
      lookupKey (((((LRUCache.init 2).put 1 1).put 2 2).get 1).2.put 3 3).dict 2 = none := by
  decide

/-! Helper lemmas on the association-list model of the dict. -/

theorem lookupKey_isSome_iff (d : List (Int × Int)) (k : Int) :
    (lookupKey d k).isSome ↔ k ∈ keys d := by
  induction d with
  | nil => simp [lookupKey, keys]
  | cons p rest ih =>
    obtain ⟨k', v⟩ := p
    by_cases h : k = k' <;> simp [lookupKey, keys, h] <;> simpa [keys] using ih

theorem lookupKey_eq_none_iff (d : List (Int × Int)) (k : Int) :
    lookupKey d k = none ↔ k ∉ keys d := by
  rw [← lookupKey_isSome_iff, Option.isSome_iff_exists]
  cases lookupKey d k <;> simp

theorem lookupKey_setKey_self (d : List (Int × Int)) (k v : Int) :
    lookupKey (setKey d k v) k = some v := by
  induction d with
  | nil => simp [setKey, lookupKey]
  | cons p rest ih =>
    obtain ⟨k', v'⟩ := p
    by_cases h : k = k' <;> simp [setKey, lookupKey, h, ih]

theorem lookupKey_setKey_ne (d : List (Int × Int)) (k v k' : Int) (h : k' ≠ k) :
    lookupKey (setKey d k v) k' = lookupKey d k' := by
  induction d with
  | nil => simp [setKey, lookupKey, h]
  | cons p rest ih =>
    obtain ⟨k0, v0⟩ := p
    by_cases h1 : k = k0
    · subst h1; simp [setKey, lookupKey, h]
    · by_cases h2 : k' = k0 <;> simp [setKey, lookupKey, h1, h2, ih]

theorem keys_cons (k0 v0 : Int) (rest : List (Int × Int)) :
    keys ((k0, v0) :: rest) = k0 :: keys rest := rfl

theorem keys_setKey_of_mem (d : List (Int × Int)) (k v : Int) (h : k ∈ keys d) :
    keys (setKey d k v) = keys d := by
  induction d with
  | nil => simp [keys] at h
  | cons p rest ih =>
    obtain ⟨k0, v0⟩ := p
    by_cases h1 : k = k0
    · subst h1; simp [setKey, keys_cons]
    · rw [keys_cons] at h
      rcases List.mem_cons.mp h with he | hm
      · exact absurd he h1
      · simp [setKey, h1, keys_cons, ih hm]

theorem keys_setKey_of_not_mem (d : List (Int × Int)) (k v : Int) (h : k ∉ keys d) :
    keys (setKey d k v) = keys d ++ [k] := by
  induction d with
  | nil => simp [setKey, keys]
  | cons p rest ih =>
    obtain ⟨k0, v0⟩ := p
    rw [keys_cons] at h
    have h1 : k ≠ k0 := fun he => h (List.mem_cons.mpr (Or.inl he))
    have h2 : k ∉ keys rest := fun hm => h (List.mem_cons.mpr (Or.inr hm))
    simp [setKey, h1, keys_cons, ih h2]

theorem length_setKey_of_mem (d : List (Int × Int)) (k v : Int) (h : k ∈ keys d) :
    (setKey d k v).length = d.length := by
  have h1 := keys_setKey_of_mem d k v h
  have h2 : (keys (setKey d k v)).length = (keys d).length := by rw [h1]
  simpa [keys] using h2

theorem length_setKey_of_not_mem (d : List (Int × Int)) (k v : Int) (h : k ∉ keys d) :
    (setKey d k v).length = d.length + 1 := by
  have h1 := keys_setKey_of_not_mem d k v h
  have h2 : (keys (setKey d k v)).length = (keys d).length + 1 := by
    rw [h1]; simp
  simpa [keys] using h2

theorem delKey_sublist (d : List (Int × Int)) (k : Int) :
    List.Sublist (delKey d k) d := by
  induction d with
  | nil => simp [delKey]
  | cons p rest ih =>
    obtain ⟨k0, v0⟩ := p
    by_cases h : k = k0
    · simpa [delKey, h] using List.sublist_cons_self (k0, v0) rest
    · simpa [delKey, h] using ih.cons₂ (k0, v0)

theorem keys_delKey_sublist (d : List (Int × Int)) (k : Int) :
    List.Sublist (keys (delKey d k)) (keys d) :=
  (delKey_sublist d k).map Prod.fst

theorem mem_keys_delKey (d : List (Int × Int)) (k k' : Int)
    (hn : (keys d).Nodup) : k' ∈ keys (delKey d k) ↔ k' ∈ keys d ∧ k' ≠ k := by
  induction d with
  | nil => simp [delKey, keys]
  | cons p rest ih =>
    obtain ⟨k0, v0⟩ := p
    rw [keys_cons] at hn
    have hn1 : k0 ∉ keys rest := (List.nodup_cons.mp hn).1
    have hn2 : (keys rest).Nodup := (List.nodup_cons.mp hn).2
    by_cases h : k = k0
    · subst h
      have hd : delKey ((k, v0) :: rest) k = rest := by simp [delKey]
      rw [hd, keys_cons]
      constructor
      · intro hm
        refine ⟨List.mem_cons.mpr (Or.inr hm), fun he => hn1 ?_⟩
        exact he ▸ hm
      · rintro ⟨hm, hne⟩
        rcases List.mem_cons.mp hm with he | hm2
        · exact absurd he hne
        · exact hm2
    · have hd : delKey ((k0, v0) :: rest) k = (k0, v0) :: delKey rest k := by
        simp [delKey, h]
      rw [hd, keys_cons, keys_cons]
      constructor
      · intro hm
        rcases List.mem_cons.mp hm with he | hm2
        · refine ⟨List.mem_cons.mpr (Or.inl he), fun he2 => h ?_⟩
          rw [← he2]; exact he
        · obtain ⟨hm3, hne⟩ := (ih hn2).mp hm2
          exact ⟨List.mem_cons.mpr (Or.inr hm3), hne⟩
      · rintro ⟨hm, hne⟩
        rcases List.mem_cons.mp hm with he | hm2
        · exact List.mem_cons.mpr (Or.inl he)
        · exact List.mem_cons.mpr (Or.inr ((ih hn2).mpr ⟨hm2, hne⟩))

theorem length_delKey_of_mem (d : List (Int × Int)) (k : Int) (h : k ∈ keys d) :
    (delKey d k).length + 1 = d.length := by
  induction d with
  | nil => simp [keys] at h
  | cons p rest ih =>
    obtain ⟨k0, v0⟩ := p
    by_cases h1 : k = k0
    · simp [delKey, h1]
    · rw [keys_cons] at h
      rcases List.mem_cons.mp h with he | hm
      · exact absurd he h1
      · simp [delKey, h1]
        have := ih hm
        omega

theorem lookupKey_delKey_ne (d : List (Int × Int)) (k k' : Int) (h : k' ≠ k) :
    lookupKey (delKey d k) k' = lookupKey d k' := by
  induction d with
  | nil => simp [delKey]
  | cons p rest ih =>
    obtain ⟨k0, v0⟩ := p
    by_cases h1 : k = k0
    · subst h1; simp [delKey, lookupKey, h]
    · by_cases h2 : k' = k0 <;> simp [delKey, lookupKey, h1, h2, ih]

theorem lookupKey_delKey_self (d : List (Int × Int)) (k : Int)
    (hn : (keys d).Nodup) : lookupKey (delKey d k) k = none := by
  rw [lookupKey_eq_none_iff]
  intro hm
  rw [mem_keys_delKey d k k hn] at hm
  exact hm.2 rfl

theorem keysNodup_setKey (d : List (Int × Int)) (k v : Int)
    (hn : (keys d).Nodup) : (keys (setKey d k v)).Nodup := by
  by_cases h : k ∈ keys d
  · rwa [keys_setKey_of_mem d k v h]
  · rw [keys_setKey_of_not_mem d k v h]
    simpa [List.nodup_append] using ⟨hn, h⟩

theorem keysNodup_delKey (d : List (Int × Int)) (k : Int)
    (hn : (keys d).Nodup) : (keys (delKey d k)).Nodup :=
  hn.sublist (keys_delKey_sublist d k)

/-! Helper lemmas relating lastKey and dropLast. -/

theorem lastKey_eq_getLast (l : List Int) (h : l ≠ []) : lastKey l = l.getLast h := by
  induction l with
  | nil => exact absurd rfl h
  | cons a rest ih =>
    cases rest with
    | nil => simp [lastKey, List.getLast]
    | cons b t =>
      rw [List.getLast_cons (List.cons_ne_nil b t)]
      exact ih (List.cons_ne_nil b t)

theorem lastKey_mem (l : List Int) (h : l ≠ []) : lastKey l ∈ l := by
  rw [lastKey_eq_getLast l h]; exact List.getLast_mem h

theorem dropLast_append_lastKey (l : List Int) (h : l ≠ []) :
    l.dropLast ++ [lastKey l] = l := by
  rw [lastKey_eq_getLast l h]; exact List.dropLast_append_getLast h

theorem lastKey_not_mem_dropLast (l : List Int) (hn : l.Nodup) (h : l ≠ []) :
    lastKey l ∉ l.dropLast := by
  intro hm
  have hd := dropLast_append_lastKey l h
  rw [← hd] at hn
  rcases List.nodup_append.mp hn with ⟨-, -, hdisj⟩
  exact hdisj hm (by simp)

theorem mem_dropLast_iff (l : List Int) (hn : l.Nodup) (h : l ≠ []) (k : Int) :
    k ∈ l.dropLast ↔ k ∈ l ∧ k ≠ lastKey l := by
  constructor
  · intro hm
    refine ⟨List.mem_of_mem_dropLast hm, ?_⟩
    intro he; subst he; exact lastKey_not_mem_dropLast l hn h hm
  · rintro ⟨hm, hne⟩
    have hd := dropLast_append_lastKey l h
    rw [← hd] at hm
    rcases List.mem_append.mp hm with hm1 | hm1
    · exact hm1
    · simp at hm1; exact absurd hm1 hne

theorem lastKey_cons_of_ne_nil (a : Int) (l : List Int) (h : l ≠ []) :
    lastKey (a :: l) = lastKey l := by
  cases l with
  | nil => exact absurd rfl h
  | cons b t => simp [lastKey]

/-! Characterization of the two public operations, branch by branch. -/

theorem cacheInv_init (c : Int) : CacheInv (LRUCache.init c) := by
  refine ⟨?_, ?_, ?_, ?_, ?_⟩ <;> simp [LRUCache.init, keys]

theorem get_miss (s : LRUCache) (k : Int) (h : lookupKey s.dict k = none) :
    s.get k = (-1, s) := by
  simp [LRUCache.get, h]

theorem get_hit (s : LRUCache) (k v : Int) (h : lookupKey s.dict k = some v) :
    s.get k = (v, { s with order := k :: s.order.erase k }) := by
  simp [LRUCache.get, h]

theorem put_miss_eq (s : LRUCache) (k v : Int) (h : lookupKey s.dict k = none) :
    s.put k v =
      if s.capacity < ((setKey s.dict k v).length : Int) then
        { dict := delKey (setKey s.dict k v) (lastKey (k :: s.order)),
          order := (k :: s.order).dropLast, capacity := s.capacity }
      else
        { dict := setKey s.dict k v, order := k :: s.order,
          capacity := s.capacity } := by
  simp [LRUCache.put, h]

theorem put_hit_eq (s : LRUCache) (k v v0 : Int) (h : lookupKey s.dict k = some v0) :
    s.put k v =
      if s.capacity < ((setKey s.dict k v).length : Int) then
        { dict := delKey (setKey s.dict k v) (lastKey (k :: s.order.erase k)),
          order := (k :: s.order.erase k).dropLast, capacity := s.capacity }
      else
        { dict := setKey s.dict k v, order := k :: s.order.erase k,
          capacity := s.capacity } := by
  simp [LRUCache.put, h]

/-! Preservation of the structural invariant. -/

theorem cacheInv_cons_hit (d : List (Int × Int)) (l : List Int) (c c' : Int)
    (k v : Int) (hInv : CacheInv ⟨d, l, c⟩) (hk : k ∈ keys d) :
    CacheInv ⟨setKey d k v, k :: l.erase k, c'⟩ := by
  obtain ⟨kn, ond, s1, s2, len⟩ := hInv
  have hkeys : keys (setKey d k v) = keys d := keys_setKey_of_mem d k v hk
  have hkl : k ∈ l := s1 k hk
  refine ⟨?_, ?_, ?_, ?_, ?_⟩
  · show (keys (setKey d k v)).Nodup
    rw [hkeys]; exact kn
  · show (k :: l.erase k).Nodup
    refine List.nodup_cons.mpr ⟨?_, ond.erase k⟩
    intro hm
    exact ((ond.mem_erase_iff.mp hm).1) rfl
  · show ∀ k' ∈ keys (setKey d k v), k' ∈ k :: l.erase k
    intro k' hk'
    rw [hkeys] at hk'
    by_cases he : k' = k
    · exact List.mem_cons.mpr (Or.inl he)
    · exact List.mem_cons.mpr (Or.inr (ond.mem_erase_iff.mpr ⟨he, s1 k' hk'⟩))
  · show ∀ k' ∈ k :: l.erase k, k' ∈ keys (setKey d k v)
    intro k' hk'
    rw [hkeys]
    rcases List.mem_cons.mp hk' with he | hm
    · exact he ▸ hk
    · exact s2 k' (ond.mem_erase_iff.mp hm).2
  · show (setKey d k v).length = (k :: l.erase k).length
    rw [length_setKey_of_mem d k v hk]
    have h1 : (l.erase k).length = l.length - 1 := List.length_erase_of_mem hkl
    have h2 : 0 < l.length := List.length_pos_of_mem hkl
    simp only [List.length_cons, len, h1]
    omega

theorem cacheInv_cons_miss (d : List (Int × Int)) (l : List Int) (c c' : Int)
    (k v : Int) (hInv : CacheInv ⟨d, l, c⟩) (hk : k ∉ keys d) :
    CacheInv ⟨setKey d k v, k :: l, c'⟩ := by
  obtain ⟨kn, ond, s1, s2, len⟩ := hInv
  have hkeys : keys (setKey d k v) = keys d ++ [k] := keys_setKey_of_not_mem d k v hk
  have hkl : k ∉ l := fun hm => hk (s2 k hm)
  refine ⟨?_, ?_, ?_, ?_, ?_⟩
  · show (keys (setKey d k v)).Nodup
    exact keysNodup_setKey d k v kn
  · show (k :: l).Nodup
    exact List.nodup_cons.mpr ⟨hkl, ond⟩
  · show ∀ k' ∈ keys (setKey d k v), k' ∈ k :: l
    intro k' hk'
    rw [hkeys] at hk'
    rcases List.mem_append.mp hk' with hm | hm
    · exact List.mem_cons.mpr (Or.inr (s1 k' hm))
    · simp at hm
      exact List.mem_cons.mpr (Or.inl hm)
  · show ∀ k' ∈ k :: l, k' ∈ keys (setKey d k v)
    intro k' hk'
    rw [hkeys]
    rcases List.mem_cons.mp hk' with he | hm
    · exact List.mem_append.mpr (Or.inr (by simp [he]))
    · exact List.mem_append.mpr (Or.inl (s2 k' hm))
  · show (setKey d k v).length = (k :: l).length
    rw [length_setKey_of_not_mem d k v hk]
    simp [len]

theorem cacheInv_evict (d : List (Int × Int)) (l : List Int) (c c' : Int)
    (hInv : CacheInv ⟨d, l, c⟩) (hne : l ≠ []) :
    CacheInv ⟨delKey d (lastKey l), l.dropLast, c'⟩ := by
  obtain ⟨kn, ond, s1, s2, len⟩ := hInv
  have hlk : lastKey l ∈ l := lastKey_mem l hne
  have hlkd : lastKey l ∈ keys d := s2 _ hlk
  refine ⟨?_, ?_, ?_, ?_, ?_⟩
  · show (keys (delKey d (lastKey l))).Nodup
    exact keysNodup_delKey d (lastKey l) kn
  · show l.dropLast.Nodup
    exact ond.sublist (List.dropLast_sublist l)
  · show ∀ k' ∈ keys (delKey d (lastKey l)), k' ∈ l.dropLast
    intro k' hk'
    obtain ⟨hm, hne'⟩ := (mem_keys_delKey d (lastKey l) k' kn).mp hk'
    exact (mem_dropLast_iff l ond hne k').mpr ⟨s1 k' hm, hne'⟩
  · show ∀ k' ∈ l.dropLast, k' ∈ keys (delKey d (lastKey l))
    intro k' hk'
    obtain ⟨hm, hne'⟩ := (mem_dropLast_iff l ond hne k').mp hk'
    exact (mem_keys_delKey d (lastKey l) k' kn).mpr ⟨s2 k' hm, hne'⟩
  · show (delKey d (lastKey l)).length = l.dropLast.length
    have h1 := length_delKey_of_mem d (lastKey l) hlkd
    have h2 := List.length_dropLast l
    have h3 : 0 < l.length := List.length_pos_of_mem hlk
    have len' : d.length = l.length := len
    omega

theorem cacheInv_put (s : LRUCache) (k v : Int) (hInv : CacheInv s) :
    CacheInv (s.put k v) := by
  cases hl : lookupKey s.dict k with
  | none =>
    rw [put_miss_eq s k v hl]
    have hk : k ∉ keys s.dict := (lookupKey_eq_none_iff s.dict k).mp hl
    have hmid : CacheInv ⟨setKey s.dict k v, k :: s.order, s.capacity⟩ :=
      cacheInv_cons_miss s.dict s.order s.capacity s.capacity k v hInv hk
    split
    · exact cacheInv_evict _ _ s.capacity s.capacity hmid (List.cons_ne_nil _ _)
    · exact hmid
  | some v0 =>
    rw [put_hit_eq s k v v0 hl]
    have hk : k ∈ keys s.dict := by
      rw [← lookupKey_isSome_iff, hl]; rfl
    have hmid : CacheInv ⟨setKey s.dict k v, k :: s.order.erase k, s.capacity⟩ :=
      cacheInv_cons_hit s.dict s.order s.capacity s.capacity k v hInv hk
    split
    · exact cacheInv_evict _ _ s.capacity s.capacity hmid (List.cons_ne_nil _ _)
    · exact hmid

theorem cacheInv_get (s : LRUCache) (k : Int) (hInv : CacheInv s) :
    CacheInv (s.get k).2 := by
  cases hl : lookupKey s.dict k with
  | none => rw [get_miss s k hl]; exact hInv
  | some v =>
    rw [get_hit s k v hl]
    have hk : k ∈ keys s.dict := by
      rw [← lookupKey_isSome_iff, hl]; rfl
    have h := cacheInv_cons_hit s.dict s.order s.capacity s.capacity k v hInv hk
    obtain ⟨kn, ond, s1, s2, len⟩ := h
    have hkeys : keys (setKey s.dict k v) = keys s.dict :=
      keys_setKey_of_mem s.dict k v hk
    have hlen : (setKey s.dict k v).length = s.dict.length :=
      length_setKey_of_mem s.dict k v hk
    refine ⟨hInv.1, ond, ?_, ?_, ?_⟩
    · intro k' hk'
      exact s1 k' (by rw [hkeys]; exact hk')
    · intro k' hk'
      have := s2 k' hk'
      rw [hkeys] at this
      exact this
    · have := len
      rw [hlen] at this
      exact this

theorem cacheInv_step (s : LRUCache) (o : Op) (hInv : CacheInv s) :
    CacheInv (s.step o) := by
  cases o with
  | get k => exact cacheInv_get s k hInv
  | put k v => exact cacheInv_put s k v hInv

theorem cacheInv_run (s : LRUCache) (ops : List Op) (hInv : CacheInv s) :
    CacheInv (s.run ops) := by
  induction ops generalizing s with
  | nil => exact hInv
  | cons o rest ih =>
    exact ih (s.step o) (cacheInv_step s o hInv)

theorem reachable_cacheInv (s : LRUCache) (h : Reachable s) : CacheInv s := by
  obtain ⟨c, ops, rfl⟩ := h
  exact cacheInv_run (LRUCache.init c) ops (cacheInv_init c)

/-! Capacity is never modified, and the dict length stays bounded. -/

theorem capacity_get (s : LRUCache) (k : Int) : (s.get k).2.capacity = s.capacity := by
  cases hl : lookupKey s.dict k with
  | none => rw [get_miss s k hl]
  | some v => rw [get_hit s k v hl]

theorem capacity_put (s : LRUCache) (k v : Int) : (s.put k v).capacity = s.capacity := by
  cases hl : lookupKey s.dict k with
  | none => rw [put_miss_eq s k v hl]; split <;> rfl
  | some v0 => rw [put_hit_eq s k v v0 hl]; split <;> rfl

theorem capacity_step (s : LRUCache) (o : Op) : (s.step o).capacity = s.capacity := by
  cases o with
  | get k => exact capacity_get s k
  | put k v => exact capacity_put s k v

theorem capacity_run (s : LRUCache) (ops : List Op) :
    (s.run ops).capacity = s.capacity := by
  induction ops generalizing s with
  | nil => rfl
  | cons o rest ih => rw [LRUCache.run, List.foldl_cons, ← LRUCache.run, ih, capacity_step]

theorem dict_length_put_le (s : LRUCache) (k v : Int) (hInv : CacheInv s)
    (h : (s.dict.length : Int) ≤ max s.capacity 0) :
    ((s.put k v).dict.length : Int) ≤ max s.capacity 0 := by
  cases hl : lookupKey s.dict k with
  | none =>
    have hk : k ∉ keys s.dict := (lookupKey_eq_none_iff s.dict k).mp hl
    have hD : (setKey s.dict k v).length = s.dict.length + 1 :=
      length_setKey_of_not_mem s.dict k v hk
    have hmid : CacheInv ⟨setKey s.dict k v, k :: s.order, s.capacity⟩ :=
      cacheInv_cons_miss s.dict s.order s.capacity s.capacity k v hInv hk
    rw [put_miss_eq s k v hl]
    split
    · have hlk : lastKey (k :: s.order) ∈ k :: s.order :=
        lastKey_mem _ (List.cons_ne_nil _ _)
      have hlkd : lastKey (k :: s.order) ∈ keys (setKey s.dict k v) :=
        hmid.2.2.2.1 _ hlk
      have hdel := length_delKey_of_mem (setKey s.dict k v) (lastKey (k :: s.order)) hlkd
      show ((delKey (setKey s.dict k v) (lastKey (k :: s.order))).length : Int) ≤ _
      omega
    · rename_i hcond
      show ((setKey s.dict k v).length : Int) ≤ _
      omega
  | some v0 =>
    have hk : k ∈ keys s.dict := by rw [← lookupKey_isSome_iff, hl]; rfl
    have hD : (setKey s.dict k v).length = s.dict.length :=
      length_setKey_of_mem s.dict k v hk
    have hmid : CacheInv ⟨setKey s.dict k v, k :: s.order.erase k, s.capacity⟩ :=
      cacheInv_cons_hit s.dict s.order s.capacity s.capacity k v hInv hk
    rw [put_hit_eq s k v v0 hl]
    split
    · have hlk : lastKey (k :: s.order.erase k) ∈ k :: s.order.erase k :=
        lastKey_mem _ (List.cons_ne_nil _ _)
      have hlkd : lastKey (k :: s.order.erase k) ∈ keys (setKey s.dict k v) :=
        hmid.2.2.2.1 _ hlk
      have hdel :=
        length_delKey_of_mem (setKey s.dict k v) (lastKey (k :: s.order.erase k)) hlkd
      show ((delKey (setKey s.dict k v) (lastKey (k :: s.order.erase k))).length : Int) ≤ _
      omega
    · rename_i hcond
      show ((setKey s.dict k v).length : Int) ≤ _
      omega

theorem dict_length_step_le (s : LRUCache) (o : Op) (hInv : CacheInv s)
    (h : (s.dict.length : Int) ≤ max s.capacity 0) :
    ((s.step o).dict.length : Int) ≤ max s.capacity 0 := by
  cases o with
  | get k =>
    show (((s.get k).2).dict.length : Int) ≤ _
    cases hl : lookupKey s.dict k with
    | none => rw [get_miss s k hl]; exact h
    | some v => rw [get_hit s k v hl]; exact h
  | put k v => exact dict_length_put_le s k v hInv h

theorem dict_length_run_le (s : LRUCache) (ops : List Op) (hInv : CacheInv s)
    (h : (s.dict.length : Int) ≤ max s.capacity 0) :
    ((s.run ops).dict.length : Int) ≤ max s.capacity 0 := by
  induction ops generalizing s with
  | nil => exact h
  | cons o rest ih =>
    rw [LRUCache.run, List.foldl_cons, ← LRUCache.run]
    have h1 := ih (s.step o) (cacheInv_step s o hInv) (by rw [capacity_step]; exact dict_length_step_le s o hInv h)
    rw [capacity_step] at h1
    exact h1

/-! Bookkeeping for the most-recent-touch order of keys. -/

theorem run_append (s : LRUCache) (l : List Op) (o : Op) :
    s.run (l ++ [o]) = (s.run l).step o := by
  unfold LRUCache.run
  rw [List.foldl_append LRUCache.step s l [o]]
  rfl

theorem get_touches_self (k : Int) : (Op.get k).touches k = true := by
  simp [Op.touches]

theorem put_touches_self (k v : Int) : (Op.put k v).touches k = true := by
  simp [Op.touches]

theorem get_not_touches (k k' : Int) (h : k ≠ k') : (Op.get k').touches k = false := by
  simp [Op.touches, h]

theorem put_not_touches (k k' v : Int) (h : k ≠ k') :
    (Op.put k' v).touches k = false := by
  simp [Op.touches, h]

theorem lastTouch_append (l : List Op) (o : Op) (k : Int) :
    lastTouch (l ++ [o]) k =
      if o.touches k then some l.length else lastTouch l k := by
  induction l with
  | nil => cases ht : o.touches k <;> simp [lastTouch, ht]
  | cons x rest ih =>
    cases ht : o.touches k with
    | true =>
      rw [List.cons_append]
      simp only [lastTouch, ih, ht, if_true]
      simp [List.length_cons]
    | false =>
      rw [List.cons_append]
      simp [lastTouch, ih, ht]

theorem lastTouch_append_of_touches (l : List Op) (o : Op) (k : Int)
    (h : o.touches k = true) : lastTouch (l ++ [o]) k = some l.length := by
  rw [lastTouch_append]; simp [h]

theorem lastTouch_append_of_not_touches (l : List Op) (o : Op) (k : Int)
    (h : o.touches k = false) : lastTouch (l ++ [o]) k = lastTouch l k := by
  rw [lastTouch_append]; simp [h]

theorem lastTouch_lt_length (l : List Op) (k : Int) (i : Nat)
    (h : lastTouch l k = some i) : i < l.length := by
  induction l generalizing i with
  | nil => simp [lastTouch] at h
  | cons x rest ih =>
    rw [lastTouch] at h
    cases hr : lastTouch rest k with
    | some j =>
      rw [hr] at h
      simp at h
      have := ih j hr
      simp [List.length_cons]
      omega
    | none =>
      rw [hr] at h
      by_cases ht : x.touches k
      · simp [ht] at h
        simp [← h]
      · simp [ht] at h

theorem lastTouch_append_isSome (l : List Op) (o : Op) (k : Int)
    (h : (lastTouch l k).isSome) : (lastTouch (l ++ [o]) k).isSome := by
  rw [lastTouch_append]
  cases ht : o.touches k <;> simp [h]

theorem pairwise_untouched (l : List Op) (o : Op) (xs : List Int)
    (hxs : ∀ x ∈ xs, o.touches x = false)
    (hp : xs.Pairwise (touchedAfter l)) :
    xs.Pairwise (touchedAfter (l ++ [o])) := by
  induction xs with
  | nil => exact List.Pairwise.nil
  | cons a t ih =>
    rw [List.pairwise_cons] at hp ⊢
    obtain ⟨ha, hp'⟩ := hp
    refine ⟨?_, ih (fun x hx => hxs x (List.mem_cons.mpr (Or.inr hx))) hp'⟩
    intro b hb
    obtain ⟨i, j, hi, hj, hij⟩ := ha b hb
    refine ⟨i, j, ?_, ?_, hij⟩
    · rw [lastTouch_append_of_not_touches l o a (hxs a (List.mem_cons_self a t))]
      exact hi
    · rw [lastTouch_append_of_not_touches l o b
        (hxs b (List.mem_cons.mpr (Or.inr hb)))]
      exact hj

theorem pairwise_cons_touched (l : List Op) (o : Op) (k : Int) (xs : List Int)
    (hk : o.touches k = true) (hxs : ∀ x ∈ xs, o.touches x = false)
    (hsome : ∀ x ∈ xs, (lastTouch l x).isSome)
    (hp : xs.Pairwise (touchedAfter l)) :
    (k :: xs).Pairwise (touchedAfter (l ++ [o])) := by
  rw [List.pairwise_cons]
  constructor
  · intro b hb
    obtain ⟨j, hj⟩ := Option.isSome_iff_exists.mp (hsome b hb)
    refine ⟨l.length, j, lastTouch_append_of_touches l o k hk, ?_,
      lastTouch_lt_length l b j hj⟩
    rw [lastTouch_append_of_not_touches l o b (hxs b hb)]
    exact hj
  · exact pairwise_untouched l o xs hxs hp

theorem pairwise_transfer (ops' : List Op) (big small : List Int)
    (hs : List.Sublist small big)
    (hS : ∀ x ∈ big, (lastTouch ops' x).isSome)
    (hP : big.Pairwise (touchedAfter ops')) :
    (∀ x ∈ small, (lastTouch ops' x).isSome) ∧
      small.Pairwise (touchedAfter ops') :=
  ⟨fun x hx => hS x (hs.subset hx), hP.sublist hs⟩

theorem run_order_sound (c : Int) (ops : List Op) :
    (∀ k ∈ ((LRUCache.init c).run ops).order, (lastTouch ops k).isSome) ∧
      ((LRUCache.init c).run ops).order.Pairwise (touchedAfter ops) := by
  induction ops using List.reverseRecOn with
  | nil => constructor <;> simp [LRUCache.run, LRUCache.init]
  | append_singleton l o ih =>
    obtain ⟨ihS, ihP⟩ := ih
    have hInv : CacheInv ((LRUCache.init c).run l) :=
      cacheInv_run (LRUCache.init c) l (cacheInv_init c)
    obtain ⟨kn, ond, s1, s2, len⟩ := hInv
    rw [run_append]
    cases o with
    | get k =>
      simp only [LRUCache.step]
      cases hl : lookupKey ((LRUCache.init c).run l).dict k with
      | none =>
        rw [get_miss _ k hl]
        have hk : k ∉ ((LRUCache.init c).run l).order := by
          intro hm
          have h1 := s2 k hm
          rw [← lookupKey_isSome_iff, hl] at h1
          simp at h1
        constructor
        · intro k' hk'
          exact lastTouch_append_isSome l _ k' (ihS k' hk')
        · refine pairwise_untouched l _ _ ?_ ihP
          intro x hx
          exact get_not_touches x k (fun he => hk (he ▸ hx))
      | some v =>
        rw [get_hit _ k v hl]
        constructor
        · intro k' hk'
          rcases List.mem_cons.mp hk' with he | hm
          · subst he
            rw [lastTouch_append_of_touches l _ k' (get_touches_self k')]
            rfl
          · exact lastTouch_append_isSome l _ k'
              (ihS k' ((List.erase_sublist k _).subset hm))
        · refine pairwise_cons_touched l (Op.get k) k _ (get_touches_self k) ?_ ?_
            (ihP.sublist (List.erase_sublist k _))
          · intro x hx
            exact get_not_touches x k (ond.mem_erase_iff.mp hx).1
          · intro x hx
            exact ihS x (ond.mem_erase_iff.mp hx).2
    | put k v =>
      simp only [LRUCache.step]
      cases hl : lookupKey ((LRUCache.init c).run l).dict k with
      | none =>
        have hk : k ∉ ((LRUCache.init c).run l).order := by
          intro hm
          have h1 := s2 k hm
          rw [← lookupKey_isSome_iff, hl] at h1
          simp at h1
        have hbaseS : ∀ x ∈ k :: ((LRUCache.init c).run l).order,
            (lastTouch (l ++ [Op.put k v]) x).isSome := by
          intro x hx
          rcases List.mem_cons.mp hx with he | hm
          · subst he
            rw [lastTouch_append_of_touches l _ x (put_touches_self x v)]
            rfl
          · exact lastTouch_append_isSome l _ x (ihS x hm)
        have hbaseP : (k :: ((LRUCache.init c).run l).order).Pairwise
            (touchedAfter (l ++ [Op.put k v])) := by
          refine pairwise_cons_touched l (Op.put k v) k _ (put_touches_self k v)
            ?_ ihS ihP
          intro x hx
          exact put_not_touches x k v (fun he => hk (he ▸ hx))
        rw [put_miss_eq _ k v hl]
        split
        · exact pairwise_transfer _ _ _ (List.dropLast_sublist _) hbaseS hbaseP
        · exact pairwise_transfer _ _ _ (List.Sublist.refl _) hbaseS hbaseP
      | some v0 =>
        have hbaseS : ∀ x ∈ k :: ((LRUCache.init c).run l).order.erase k,
            (lastTouch (l ++ [Op.put k v]) x).isSome := by
          intro x hx
          rcases List.mem_cons.mp hx with he | hm
          · subst he
            rw [lastTouch_append_of_touches l _ x (put_touches_self x v)]
            rfl
          · exact lastTouch_append_isSome l _ x
              (ihS x ((List.erase_sublist k _).subset hm))
        have hbaseP : (k :: ((LRUCache.init c).run l).order.erase k).Pairwise
            (touchedAfter (l ++ [Op.put k v])) := by
          refine pairwise_cons_touched l (Op.put k v) k _ (put_touches_self k v)
            ?_ ?_ (ihP.sublist (List.erase_sublist k _))
          · intro x hx
            exact put_not_touches x k v (ond.mem_erase_iff.mp hx).1
          · intro x hx
            exact ihS x (ond.mem_erase_iff.mp hx).2
        rw [put_hit_eq _ k v v0 hl]
        split
        · exact pairwise_transfer _ _ _ (List.dropLast_sublist _) hbaseS hbaseP
        · exact pairwise_transfer _ _ _ (List.Sublist.refl _) hbaseS hbaseP

/-! The claims. -/

/-- C1: for a well-formed cache of positive capacity, a put on an absent key
whose insertion pushes the entry count above capacity removes the entry at
the least-recently-used position (the one adjacent to the tail sentinel,
that is the last key of the recency list) from both the dict and the
recency list, evicts nothing else (every other key survives and the new
key is present), and the entry count ends exactly where it started. -/
theorem C1_evicts_lru (s : LRUCache) (k v : Int) (hInv : CacheInv s)
    (hcap : 0 < s.capacity) (hk : lookupKey s.dict k = none)
    (hfull : s.capacity < (s.dict.length : Int) + 1) :
    lookupKey (s.put k v).dict (lastKey s.order) = none ∧
      lastKey s.order ∉ (s.put k v).order ∧
      (s.put k v).dict.length = s.dict.length ∧
      (∀ k' ∈ s.order, k' ≠ lastKey s.order → k' ∈ (s.put k v).order) ∧
      lookupKey (s.put k v).dict k = some v ∧
      k ∈ (s.put k v).order := by
  obtain ⟨kn, ond, s1, s2, len⟩ := hInv
  have hkm : k ∉ keys s.dict := (lookupKey_eq_none_iff s.dict k).mp hk
  have hko : k ∉ s.order := fun hm => hkm (s2 k hm)
  have hD : (setKey s.dict k v).length = s.dict.length + 1 :=
    length_setKey_of_not_mem s.dict k v hkm
  have hlen1 : 1 ≤ s.dict.length := by omega
  have horder : s.order ≠ [] := by
    intro he
    rw [he, List.length_nil] at len
    omega
  have hlast : lastKey (k :: s.order) = lastKey s.order :=
    lastKey_cons_of_ne_nil k s.order horder
  have hlk_mem : lastKey s.order ∈ s.order := lastKey_mem s.order horder
  have hlk_ne : lastKey s.order ≠ k := fun he => hko (he ▸ hlk_mem)
  have hnodup2 : (k :: s.order).Nodup := List.nodup_cons.mpr ⟨hko, ond⟩
  have hcond : s.capacity < ((setKey s.dict k v).length : Int) := by
    rw [hD]; push_cast; omega
  have hlkd1 : lastKey s.order ∈ keys (setKey s.dict k v) := by
    rw [keys_setKey_of_not_mem s.dict k v hkm]
    exact List.mem_append.mpr (Or.inl (s2 _ hlk_mem))
  have hkn1 : (keys (setKey s.dict k v)).Nodup := keysNodup_setKey s.dict k v kn
  rw [put_miss_eq s k v hk, if_pos hcond]
  refine ⟨?_, ?_, ?_, ?_, ?_, ?_⟩
  · show lookupKey (delKey (setKey s.dict k v) (lastKey (k :: s.order)))
      (lastKey s.order) = none
    rw [hlast]
    exact lookupKey_delKey_self (setKey s.dict k v) (lastKey s.order) hkn1
  · show lastKey s.order ∉ (k :: s.order).dropLast
    rw [← hlast]
    exact lastKey_not_mem_dropLast (k :: s.order) hnodup2 (List.cons_ne_nil _ _)
  · show (delKey (setKey s.dict k v) (lastKey (k :: s.order))).length = s.dict.length
    rw [hlast]
    have h1 := length_delKey_of_mem (setKey s.dict k v) (lastKey s.order) hlkd1
    omega
  · intro k' hk' hne
    show k' ∈ (k :: s.order).dropLast
    rw [mem_dropLast_iff (k :: s.order) hnodup2 (List.cons_ne_nil _ _) k', hlast]
    exact ⟨List.mem_cons.mpr (Or.inr hk'), hne⟩
  · show lookupKey (delKey (setKey s.dict k v) (lastKey (k :: s.order))) k = some v
    rw [hlast, lookupKey_delKey_ne (setKey s.dict k v) (lastKey s.order) k
      (fun he => hlk_ne he.symm)]
    exact lookupKey_setKey_self s.dict k v
  · show k ∈ (k :: s.order).dropLast
    rw [mem_dropLast_iff (k :: s.order) hnodup2 (List.cons_ne_nil _ _) k, hlast]
    exact ⟨List.mem_cons.mpr (Or.inl rfl), fun he => hlk_ne he.symm⟩

theorem C1_evicts_lru_witness :
    lookupKey (((LRUCache.init 1).put 1 1).put 2 2).dict
        (lastKey ((LRUCache.init 1).put 1 1).order) = none ∧
      (((LRUCache.init 1).put 1 1).put 2 2).dict.length =
        ((LRUCache.init 1).put 1 1).dict.length ∧
      lookupKey (((LRUCache.init 1).put 1 1).put 2 2).dict 2 = some 2 := by
  have h := C1_evicts_lru ((LRUCache.init 1).put 1 1) 2 2 (by decide) (by decide)
    (by decide) (by decide)
  exact ⟨h.1, h.2.2.1, h.2.2.2.2.1⟩

/-- C2: on a cache built with positive capacity, after any sequence of
operations (hence after each put of any sequence) the number of live
entries lies between 0 and the capacity. -/
theorem C2_capacity_bound (c : Int) (ops : List Op) (hc : 0 < c) :
    (0 : Int) ≤ (((LRUCache.init c).run ops).dict.length : Int) ∧
      (((LRUCache.init c).run ops).dict.length : Int) ≤ c := by
  have h := dict_length_run_le (LRUCache.init c) ops (cacheInv_init c)
    (by simp [LRUCache.init])
  have hcap : (LRUCache.init c).capacity = c := rfl
  rw [hcap] at h
  constructor
  · exact Int.natCast_nonneg _
  · omega

theorem C2_capacity_bound_witness :
    (0 : Int) ≤ ((((LRUCache.init 2).run [Op.put 1 1, Op.put 2 2, Op.put 3 3]).dict.length : Int)) ∧
      ((((LRUCache.init 2).run [Op.put 1 1, Op.put 2 2, Op.put 3 3]).dict.length : Int)) ≤ 2 :=
  C2_capacity_bound 2 [Op.put 1 1, Op.put 2 2, Op.put 3 3] (by decide)

/-- C3 counterexample: the source constructor performs no validation, so
construction with capacity 0 succeeds and produces a cache object on which
both operations run normally (get answers -1, put silently inserts and
immediately evicts); no construction error exists anywhere in the code. -/
theorem C3_counterexample :
    LRUCache.init 0 = { dict := [], order := [], capacity := 0 } ∧
      ((LRUCache.init 0).get 5).1 = -1 ∧
      ((LRUCache.init 0).put 1 1).dict = [] := by
  decide

/-- C3 amended: construction accepts any integer capacity, including
non-positive ones, and always yields the empty cache object with that
capacity; no error is raised at creation or at first use, and with
capacity at most 0 every put is immediately followed by an eviction that
leaves the cache empty. -/
theorem C3_amended_no_validation (c k v : Int) (hc : c ≤ 0) :
    LRUCache.init c = { dict := [], order := [], capacity := c } ∧
      ((LRUCache.init c).put k v).dict = [] ∧
      ((LRUCache.init c).put k v).order = [] := by
  have h1 : lookupKey (LRUCache.init c).dict k = none := rfl
  have hcond : (LRUCache.init c).capacity <
      ((setKey (LRUCache.init c).dict k v).length : Int) := by
    show c < ((setKey [] k v).length : Int)
    simp [setKey]
    omega
  refine ⟨rfl, ?_, ?_⟩
  · rw [put_miss_eq _ k v h1, if_pos hcond]
    show delKey (setKey [] k v) (lastKey [k]) = []
    simp [setKey, delKey, lastKey]
  · rw [put_miss_eq _ k v h1, if_pos hcond]
    show ([k] : List Int).dropLast = []
    rfl

theorem C3_amended_witness :
    LRUCache.init 0 = { dict := [], order := [], capacity := 0 } ∧
      ((LRUCache.init 0).put 1 1).dict = [] ∧
      ((LRUCache.init 0).put 1 1).order = [] :=
  C3_amended_no_validation 0 1 1 (by decide)

/-- C4 counterexample: the miss sentinel is the integer -1, so a key that
is present and stores the value -1 makes get return exactly the same
result as an absent key; the two outcomes are not distinguishable. -/
theorem C4_counterexample :
    lookupKey ((LRUCache.init 2).put 7 (-1)).dict 7 = some (-1) ∧
      lookupKey ((LRUCache.init 2).put 7 (-1)).dict 9 = none ∧
      (((LRUCache.init 2).put 7 (-1)).get 7).1 =
        (((LRUCache.init 2).put 7 (-1)).get 9).1 := by
  decide

/-- C4 amended: get on an absent key returns the in-band sentinel -1 and
leaves the state untouched (it never faults, the embedding being total);
get on a present key returns the stored value, so the two results are
distinguishable exactly when the stored value is not -1. -/
theorem C4_amended_missing_result (s : LRUCache) (k : Int) :
    (lookupKey s.dict k = none → s.get k = (-1, s)) ∧
      (∀ v, lookupKey s.dict k = some v → (s.get k).1 = v) ∧
      (∀ v, lookupKey s.dict k = some v → v ≠ -1 → (s.get k).1 ≠ -1) := by
  refine ⟨?_, ?_, ?_⟩
  · intro h
    exact get_miss s k h
  · intro v h
    rw [get_hit s k v h]
  · intro v h hv
    rw [get_hit s k v h]
    exact hv

theorem C4_amended_witness :
    (((LRUCache.init 2).put 7 5).get 9) = (-1, (LRUCache.init 2).put 7 5) ∧
      (((LRUCache.init 2).put 7 5).get 7).1 = 5 := by
  have h1 := C4_amended_missing_result ((LRUCache.init 2).put 7 5) 9
  have h2 := C4_amended_missing_result ((LRUCache.init 2).put 7 5) 7
  exact ⟨h1.1 (by decide), h2.2.1 5 (by decide)⟩

/-- C5: in every reachable state the key set of the Index equals the key
set of the Recency List: same membership for every key, no duplicates on
either side, and the same number of entries. -/
theorem C5_index_matches_list (s : LRUCache) (h : Reachable s) :
    (∀ k, (lookupKey s.dict k).isSome ↔ k ∈ s.order) ∧
      (keys s.dict).Nodup ∧ s.order.Nodup ∧
      s.dict.length = s.order.length := by
  obtain ⟨kn, ond, s1, s2, len⟩ := reachable_cacheInv s h
  refine ⟨?_, kn, ond, len⟩
  intro k
  rw [lookupKey_isSome_iff]
  exact ⟨s1 k, s2 k⟩

theorem C5_index_matches_list_witness :
    ((lookupKey ((LRUCache.init 2).run [Op.put 1 1]).dict 1).isSome ↔
      1 ∈ ((LRUCache.init 2).run [Op.put 1 1]).order) ∧
      ((LRUCache.init 2).run [Op.put 1 1]).dict.length =
        ((LRUCache.init 2).run [Op.put 1 1]).order.length := by
  have h := C5_index_matches_list ((LRUCache.init 2).run [Op.put 1 1])
    ⟨2, [Op.put 1 1], rfl⟩
  exact ⟨h.1 1, h.2.2.2⟩

/-- C6: after any operation sequence on a cache of positive capacity,
every live key has been touched, and the recency list read head to tail
is strictly ordered by decreasing index of most recent touch, i.e. it is
the reverse chronological order of last touches of the live keys. -/
theorem C6_lru_order (c : Int) (ops : List Op) (hc : 0 < c) :
    (∀ k ∈ ((LRUCache.init c).run ops).order, (lastTouch ops k).isSome) ∧
      ((LRUCache.init c).run ops).order.Pairwise (touchedAfter ops) :=
  run_order_sound c ops

theorem C6_lru_order_witness :
    ((LRUCache.init 2).run [Op.put 1 1, Op.put 2 2, Op.get 1]).order.Pairwise
      (touchedAfter [Op.put 1 1, Op.put 2 2, Op.get 1]) :=
  (C6_lru_order 2 [Op.put 1 1, Op.put 2 2, Op.get 1] (by decide)).2

/-- C7: on a well-formed state, get on a present key returns the stored
value, moves that key to the head of the recency list, leaves the dict
(hence every stored value) untouched, and preserves the number of live
entries and the capacity. -/
theorem C7_get_hit_moves_to_front (s : LRUCache) (k v : Int) (hInv : CacheInv s)
    (h : lookupKey s.dict k = some v) :
    (s.get k).1 = v ∧
      (s.get k).2.dict = s.dict ∧
      (s.get k).2.order = k :: s.order.erase k ∧
      (s.get k).2.order.head? = some k ∧
      (s.get k).2.order.length = s.order.length ∧
      (s.get k).2.capacity = s.capacity := by
  obtain ⟨kn, ond, s1, s2, len⟩ := hInv
  have hkk : k ∈ keys s.dict := by rw [← lookupKey_isSome_iff, h]; rfl
  have hko : k ∈ s.order := s1 k hkk
  rw [get_hit s k v h]
  refine ⟨rfl, rfl, rfl, rfl, ?_, rfl⟩
  show (k :: s.order.erase k).length = s.order.length
  have h1 := List.length_erase_of_mem hko
  have h2 := List.length_pos_of_mem hko
  simp only [List.length_cons, h1]
  omega

theorem C7_get_hit_witness :
    (((LRUCache.init 2).put 3 9).get 3).1 = 9 ∧
      (((LRUCache.init 2).put 3 9).get 3).2.dict = ((LRUCache.init 2).put 3 9).dict ∧
      (((LRUCache.init 2).put 3 9).get 3).2.order.length =
        ((LRUCache.init 2).put 3 9).order.length := by
  have h := C7_get_hit_moves_to_front ((LRUCache.init 2).put 3 9) 3 9
    (by decide) (by decide)
  exact ⟨h.1, h.2.1, h.2.2.2.2.1⟩

/-- C8: in any reachable state, put on a present key stores the new value
for that key, changes no other binding, moves the key to the head of the
recency list, and keeps the entry count, the list length and the capacity
unchanged: no eviction happens. -/
theorem C8_put_update_no_evict (s : LRUCache) (k v v0 : Int) (h : Reachable s)
    (hk : lookupKey s.dict k = some v0) :
    lookupKey (s.put k v).dict k = some v ∧
      (∀ k', k' ≠ k → lookupKey (s.put k v).dict k' = lookupKey s.dict k') ∧
      (s.put k v).dict.length = s.dict.length ∧
      (s.put k v).order.head? = some k ∧
      (s.put k v).order.length = s.order.length ∧
      (s.put k v).capacity = s.capacity := by
  obtain ⟨c, ops, rfl⟩ := h
  have hInv := cacheInv_run (LRUCache.init c) ops (cacheInv_init c)
  obtain ⟨kn, ond, s1, s2, len⟩ := hInv
  have hbound := dict_length_run_le (LRUCache.init c) ops (cacheInv_init c)
    (by simp [LRUCache.init])
  have hcapr : ((LRUCache.init c).run ops).capacity = c := capacity_run _ _
  have hkk : k ∈ keys ((LRUCache.init c).run ops).dict := by
    rw [← lookupKey_isSome_iff, hk]; rfl
  have hko : k ∈ ((LRUCache.init c).run ops).order := s1 k hkk
  have hpos : 0 < ((LRUCache.init c).run ops).dict.length := by
    have := List.length_pos_of_mem hkk
    have hkeq : (keys ((LRUCache.init c).run ops).dict).length =
        ((LRUCache.init c).run ops).dict.length := List.length_map _ _
    omega
  have hD : (setKey ((LRUCache.init c).run ops).dict k v).length =
      ((LRUCache.init c).run ops).dict.length :=
    length_setKey_of_mem _ k v hkk
  have hcond : ¬ ((LRUCache.init c).run ops).capacity <
      ((setKey ((LRUCache.init c).run ops).dict k v).length : Int) := by
    rw [hD, hcapr]
    have hmax : (LRUCache.init c).capacity = c := rfl
    rw [hmax] at hbound
    omega
  rw [put_hit_eq _ k v v0 hk, if_neg hcond]
  refine ⟨lookupKey_setKey_self _ k v, ?_, ?_, rfl, ?_, rfl⟩
  · intro k' hk'
    exact lookupKey_setKey_ne _ k v k' hk'
  · exact hD
  · show (k :: ((LRUCache.init c).run ops).order.erase k).length =
      ((LRUCache.init c).run ops).order.length
    have h1 := List.length_erase_of_mem hko
    have h2 := List.length_pos_of_mem hko
    simp only [List.length_cons, h1]
    omega

theorem C8_put_update_witness :
    lookupKey (((LRUCache.init 2).run [Op.put 1 1]).put 1 5).dict 1 = some 5 ∧
      (((LRUCache.init 2).run [Op.put 1 1]).put 1 5).dict.length =
        ((LRUCache.init 2).run [Op.put 1 1]).dict.length ∧
      (((LRUCache.init 2).run [Op.put 1 1]).put 1 5).order.head? = some 1 := by
  have h := C8_put_update_no_evict ((LRUCache.init 2).run [Op.put 1 1]) 1 5 1
    ⟨2, [Op.put 1 1], rfl⟩ (by decide)
  exact ⟨h.1, h.2.2.1, h.2.2.2.1⟩

/-- C9: get on an absent key returns the sentinel -1 and the state after
the call is identical to the state before it, field by field. -/
theorem C9_get_miss_pure (s : LRUCache) (k : Int)
    (h : lookupKey s.dict k = none) :
    (s.get k).1 = -1 ∧
      (s.get k).2.dict = s.dict ∧
      (s.get k).2.order = s.order ∧
      (s.get k).2.capacity = s.capacity ∧
      (s.get k).2 = s := by
  rw [get_miss s k h]
  exact ⟨rfl, rfl, rfl, rfl, rfl⟩

theorem C9_get_miss_witness :
    ((((LRUCache.init 2).put 1 1).get 3).1 = -1) ∧
      (((LRUCache.init 2).put 1 1).get 3).2 = (LRUCache.init 2).put 1 1 := by
  have h := C9_get_miss_pure ((LRUCache.init 2).put 1 1) 3 (by decide)
  exact ⟨h.1, h.2.2.2.2⟩

/-- C10: in the operation-count model that charges one unit per primitive
constant-time action of the source (a dict lookup, store or delete, a
single pointer write of a splice, a length check), every get costs at
most 8 units and every put at most 13, bounds independent of the state
and in particular of the number of live entries; no action of either
operation traverses the recency list. -/
theorem C10_constant_cost (s : LRUCache) (k v : Int) :
    s.getCost k ≤ 8 ∧ s.putCost k v ≤ 13 := by
  constructor
  · by_cases h : (lookupKey s.dict k).isSome <;> simp [LRUCache.getCost, h]
  · unfold LRUCache.putCost
    by_cases h1 : (lookupKey s.dict k).isSome <;>
      by_cases h2 : s.capacity < ((setKey s.dict k v).length : Int) <;>
        simp [h1, h2]
